import Mathlib

/-!
Shallow embedding of the core logic of `src/main.py` (GM_bot):
the history-windowing loop of `get_chat_history` and the reply-formatting
block inside `process_content` (the renderer), together with the
persistence calls the handler makes.  Strings are modelled as `List Char`;
the character scans of the Python code become structural recursions
(with an explicit fuel argument equal to the list length where the scan
jumps forward over an inline code span).
-/

/-- The backtick character, written by code point to keep source lines plain. -/
def backtick : Char := Char.ofNat 96

/-! ## Data model: stored turns -/

/-- One row of the `chat_history` table: role, content, and the `type`
column (defaulting to "text" at the call sites that omit it). -/
structure Turn where
  role : String
  content : List Char
  kind : String
deriving DecidableEq

/-- Counting the whitespace-delimited tokens of a character list, as Python
`len(text.split())` does: `inTok` records whether the scan is currently
inside a maximal non-whitespace run. -/
def countTokensAux : List Char → Bool → Nat
  | [], _ => 0
  | c :: rest, inTok =>
    if c.isWhitespace then countTokensAux rest false
    else (if inTok then 0 else 1) + countTokensAux rest true

/-- `len(text.split())` of Python: the number of maximal non-whitespace runs. -/
def tokenCount (cs : List Char) : Nat := countTokensAux cs false

/-- The costing string `f"{role}: {content} [{msg_type}]"` of
`get_chat_history`. -/
def costText (t : Turn) : List Char :=
  t.role.data ++ (':' :: ' ' :: t.content) ++ (' ' :: '[' :: t.kind.data) ++ [']']

/-- `tokens = len(text.split())` for one turn. -/
def cost (t : Turn) : Nat := tokenCount (costText t)

/-- The scanning loop of `get_chat_history`: `rows` is newest-first (the SQL
orders by `rowid DESC`), `acc` is `token_count`; the loop breaks as soon as
including the next turn would push the accumulator past `max_tokens`. -/
def windowAux : List Turn → Int → Nat → List Turn
  | [], _, _ => []
  | t :: rest, b, acc =>
    if ((acc + cost t : Nat) : Int) > b then []
    else t :: windowAux rest b (acc + cost t)

/-- `get_chat_history`: scan the newest-first rows under the budget, then
`list(reversed(history))` to restore chronological order. -/
def get_chat_history (rows : List Turn) (max_tokens : Int) : List Turn :=
  (windowAux rows max_tokens 0).reverse

/-- Total cost of a list of turns under the windowing cost function. -/
def totalCost (l : List Turn) : Nat := (l.map cost).sum

/-! ## The renderer of `process_content` -/

/-- Escaping of one ordinary (non-span) character: `_` becomes `\_`,
`[` becomes `\[`, everything else is copied. -/
def escapeChar (c : Char) : List Char :=
  if c = '_' then ['\\', '_']
  else if c = '[' then ['\\', '['] else [c]

/-- Ordinary escaping applied to every character of a list. -/
def escapeAll : List Char → List Char
  | [] => []
  | c :: rest => escapeChar c ++ escapeAll rest

/-- `line.find('`', j+1)` made total: split a list at its first backtick,
returning the part before it and the part after it, or `none` when the
list holds no backtick. -/
def takeToBacktick : List Char → Option (List Char × List Char)
  | [] => none
  | c :: rest =>
    if c = backtick then some ([], rest)
    else
      match takeToBacktick rest with
      | some p => some (c :: p.1, p.2)
      | none => none

/-- The whole-string scan of the no-fences branch (Branch B), with fuel:
an opening backtick (next character exists and is not a backtick) copies
the span up to the closing backtick verbatim, and is emitted as an escaped
backtick when no closing backtick follows; every other position is escaped
as an ordinary character. -/
def scanBGo : Nat → List Char → List Char
  | _, [] => []
  | 0, _ :: _ => []
  | _ + 1, [c] => escapeChar c
  | fuel + 1, c :: c2 :: rest =>
    if c = backtick ∧ c2 ≠ backtick then
      match takeToBacktick (c2 :: rest) with
      | some p => backtick :: p.1 ++ backtick :: scanBGo fuel p.2
      | none => '\\' :: backtick :: scanBGo fuel (c2 :: rest)
    else escapeChar c ++ scanBGo fuel (c2 :: rest)

/-- Branch B scan of a whole string; the fuel `cs.length` is enough because
every step consumes at least one character per unit of fuel. -/
def scanB (cs : List Char) : List Char := scanBGo cs.length cs

/-- The per-line prose scan of the fences branch (Branch A), with fuel:
identical to the Branch B scan except that an unterminated opening
backtick is emitted literally (as ordinary text) instead of escaped. -/
def scanAGo : Nat → List Char → List Char
  | _, [] => []
  | 0, _ :: _ => []
  | _ + 1, [c] => escapeChar c
  | fuel + 1, c :: c2 :: rest =>
    if c = backtick ∧ c2 ≠ backtick then
      match takeToBacktick (c2 :: rest) with
      | some p => backtick :: p.1 ++ backtick :: scanAGo fuel p.2
      | none => backtick :: scanAGo fuel (c2 :: rest)
    else escapeChar c ++ scanAGo fuel (c2 :: rest)

/-- Branch A prose-line scan. -/
def scanA (cs : List Char) : List Char := scanAGo cs.length cs

/-- Python `s.split('\n')`: always at least one (possibly empty) line. -/
def splitOnNl : List Char → List (List Char)
  | [] => [[]]
  | c :: rest =>
    if c = '\n' then [] :: splitOnNl rest
    else
      match splitOnNl rest with
      | [] => [[c]]
      | l :: ls => (c :: l) :: ls

/-- Python `'\n'.join(lines)`. -/
def joinNl : List (List Char) → List Char
  | [] => []
  | [l] => l
  | l :: ls => l ++ '\n' :: joinNl ls

/-- `line.startswith("```")`. -/
def startsWithFence (cs : List Char) : Bool :=
  match cs with
  | c1 :: c2 :: c3 :: _ => c1 = backtick && c2 = backtick && c3 = backtick
  | _ => false

/-- Python's substring test `"```" in s`. -/
def hasTripleBacktick : List Char → Bool
  | [] => false
  | c :: rest => startsWithFence (c :: rest) || hasTripleBacktick rest

/-- The three-backtick fence delimiter. -/
def fenceMarker : List Char := [backtick, backtick, backtick]

/-- The line loop of Branch A: a line starting with the fence marker toggles
`in_code_block`; when such a line is exactly the bare marker it is rewritten
to "```python" on opening and left as "```" on closing; lines inside a block
pass through untouched; prose lines go through the Branch A scan. -/
def processLinesA : List (List Char) → Bool → List (List Char)
  | [], _ => []
  | line :: rest, inBlock =>
    if startsWithFence line then
      let inBlock2 := !inBlock
      let line2 :=
        if line = fenceMarker then
          if inBlock2 then fenceMarker ++ "python".data else fenceMarker
        else line
      line2 :: processLinesA rest inBlock2
    else if inBlock then line :: processLinesA rest inBlock
    else scanA line :: processLinesA rest inBlock

/-- The pair produced by the formatting block: `formatted_response`
(sent to the chat) and `original_response` (saved to the transcript). -/
structure RenderResult where
  display : List Char
  stored : List Char
deriving DecidableEq

/-- The reply-formatting block of `process_content`: if the raw reply
contains "```" anywhere, process it line by line (Branch A), otherwise
scan the whole string (Branch B); in both branches `original_response`
is the raw reply itself. -/
def render (raw : List Char) : RenderResult :=
  if hasTripleBacktick raw then
    { display := joinNl (processLinesA (splitOnNl raw) false), stored := raw }
  else
    { display := scanB raw, stored := raw }

/-! ## Persistence calls of `process_content` -/

/-- `save_message`: append one row to the transcript. -/
def appendTurn (h : List Turn) (role : String) (content : List Char)
    (kind : String) : List Turn :=
  h ++ [⟨role, content, kind⟩]

/-- The transcript writes performed by one successful `process_content`
call: the incoming user message is saved under role "user" (with kind
"image"/"audio" and a placeholder content for non-text messages), and the
model reply's stored string is saved under role "bot" with the default
kind "text". -/
def processSaves (ctype : String) (msgText : List Char) (rawReply : List Char)
    (h : List Turn) : List Turn :=
  let h1 :=
    if ctype = "text" then appendTurn h "user" msgText "text"
    else if ctype = "photo" then appendTurn h "user" ("Фото".data) "image"
    else if ctype = "audio" then appendTurn h "user" ("Аудио".data) "audio"
    else h
  appendTurn h1 "bot" ((render rawReply).stored) "text"

/-! ## Helper lemmas -/

theorem countTokensAux_pos (cs : List Char) (c : Char) (hc : c ∈ cs)
    (hw : c.isWhitespace = false) : 1 ≤ countTokensAux cs false := by
  induction cs with
  | nil => cases hc
  | cons d rest ih =>
    by_cases hd : d.isWhitespace
    · have hcr : c ∈ rest := by
        cases hc with
        | head => rw [hw] at hd; cases hd
        | tail _ h => exact h
      simpa [countTokensAux, hd] using ih hcr
    · simp [countTokensAux, hd]

theorem cost_pos (t : Turn) : 1 ≤ cost t := by
  apply countTokensAux_pos (costText t) ':'
  · simp [costText]
  · decide

theorem totalCost_reverse (l : List Turn) : totalCost l.reverse = totalCost l := by
  induction l with
  | nil => rfl
  | cons t rest ih => simp [totalCost] at ih ⊢; omega

theorem windowAux_budget (b : Int) (rows : List Turn) (acc : Nat)
    (h : (acc : Int) ≤ b) :
    ((acc + totalCost (windowAux rows b acc) : Nat) : Int) ≤ b := by
  induction rows generalizing acc with
  | nil => simpa [windowAux, totalCost] using h
  | cons t rest ih =>
    rw [windowAux]
    split
    · simpa [totalCost] using h
    · rename_i hc
      have h2 : ((acc + cost t : Nat) : Int) ≤ b := by omega
      have h3 := ih (acc + cost t) h2
      simp only [totalCost, List.map_cons, List.sum_cons] at h3 ⊢
      push_cast at h3 ⊢
      omega

theorem windowAux_take (rows : List Turn) (b : Int) (acc : Nat) :
    ∃ n, windowAux rows b acc = rows.take n := by
  induction rows generalizing acc with
  | nil => exact ⟨0, rfl⟩
  | cons t rest ih =>
    rw [windowAux]
    split
    · exact ⟨0, rfl⟩
    · obtain ⟨n, hn⟩ := ih (acc + cost t)
      exact ⟨n + 1, by rw [hn]; rfl⟩

theorem windowAux_head (rows : List Turn) (b : Int) (acc : Nat)
    (h : windowAux rows b acc ≠ []) :
    (windowAux rows b acc).head? = rows.head? := by
  cases rows with
  | nil => simp [windowAux] at h
  | cons t rest =>
    rw [windowAux] at h ⊢
    split at h
    · exact absurd rfl h
    · rename_i hc
      rw [if_neg hc]
      rfl

theorem takeToBacktick_eq_none (cs : List Char) (h : backtick ∉ cs) :
    takeToBacktick cs = none := by
  induction cs with
  | nil => rfl
  | cons c rest ih =>
    have hc : ¬ c = backtick := fun hh => h (hh ▸ List.mem_cons_self c rest)
    have hr : backtick ∉ rest := fun hh => h (List.mem_cons_of_mem c hh)
    simp [takeToBacktick, hc, ih hr]

theorem takeToBacktick_append (pre post : List Char) (h : backtick ∉ pre) :
    takeToBacktick (pre ++ backtick :: post) = some (pre, post) := by
  induction pre with
  | nil => simp [takeToBacktick]
  | cons c rest ih =>
    have hc : ¬ c = backtick := fun hh => h (hh ▸ List.mem_cons_self c rest)
    have hr : backtick ∉ rest := fun hh => h (List.mem_cons_of_mem c hh)
    simp [takeToBacktick, hc, ih hr]

theorem takeToBacktick_spec (cs : List Char) (p : List Char × List Char)
    (h : takeToBacktick cs = some p) : cs = p.1 ++ backtick :: p.2 := by
  induction cs generalizing p with
  | nil => simp [takeToBacktick] at h
  | cons c rest ih =>
    rw [takeToBacktick] at h
    split at h
    · rename_i hc
      cases h
      simpa using hc
    · rename_i hc
      split at h
      · rename_i q hq
        cases h
        simpa using ih q hq
      · cases h

theorem takeToBacktick_shorter (cs : List Char) (p : List Char × List Char)
    (h : takeToBacktick cs = some p) : p.2.length < cs.length := by
  have := takeToBacktick_spec cs p h
  subst this
  simp
  omega

theorem scanBGo_congr (f : Nat) : ∀ (g : Nat) (cs : List Char),
    cs.length ≤ f → cs.length ≤ g → scanBGo f cs = scanBGo g cs := by
  induction f with
  | zero =>
    intro g cs hf _
    have : cs = [] := List.length_eq_zero.mp (Nat.le_zero.mp hf)
    subst this
    cases g <;> rfl
  | succ f ih =>
    intro g cs hf hg
    cases cs with
    | nil => cases g <;> rfl
    | cons c rest =>
      cases g with
      | zero => simp at hg
      | succ g =>
        cases rest with
        | nil => rfl
        | cons c2 r =>
          simp only [List.length_cons] at hf hg
          rw [scanBGo, scanBGo]
          by_cases hcond : (c = backtick ∧ c2 ≠ backtick)
          · rw [if_pos hcond, if_pos hcond]
            cases htk : takeToBacktick (c2 :: r) with
            | some p =>
              have hsh := takeToBacktick_shorter _ p htk
              simp only [List.length_cons] at hsh
              have h1 : p.2.length ≤ f := by omega
              have h2 : p.2.length ≤ g := by omega
              show backtick :: p.1 ++ backtick :: scanBGo f p.2 =
                backtick :: p.1 ++ backtick :: scanBGo g p.2
              rw [ih g p.2 h1 h2]
            | none =>
              have h1 : (c2 :: r).length ≤ f := by simp; omega
              have h2 : (c2 :: r).length ≤ g := by simp; omega
              show '\\' :: backtick :: scanBGo f (c2 :: r) =
                '\\' :: backtick :: scanBGo g (c2 :: r)
              rw [ih g (c2 :: r) h1 h2]
          · rw [if_neg hcond, if_neg hcond]
            have h1 : (c2 :: r).length ≤ f := by simp; omega
            have h2 : (c2 :: r).length ≤ g := by simp; omega
            rw [ih g (c2 :: r) h1 h2]

theorem scanAGo_congr (f : Nat) : ∀ (g : Nat) (cs : List Char),
    cs.length ≤ f → cs.length ≤ g → scanAGo f cs = scanAGo g cs := by
  induction f with
  | zero =>
    intro g cs hf _
    have : cs = [] := List.length_eq_zero.mp (Nat.le_zero.mp hf)
    subst this
    cases g <;> rfl
  | succ f ih =>
    intro g cs hf hg
    cases cs with
    | nil => cases g <;> rfl
    | cons c rest =>
      cases g with
      | zero => simp at hg
      | succ g =>
        cases rest with
        | nil => rfl
        | cons c2 r =>
          simp only [List.length_cons] at hf hg
          rw [scanAGo, scanAGo]
          by_cases hcond : (c = backtick ∧ c2 ≠ backtick)
          · rw [if_pos hcond, if_pos hcond]
            cases htk : takeToBacktick (c2 :: r) with
            | some p =>
              have hsh := takeToBacktick_shorter _ p htk
              simp only [List.length_cons] at hsh
              have h1 : p.2.length ≤ f := by omega
              have h2 : p.2.length ≤ g := by omega
              show backtick :: p.1 ++ backtick :: scanAGo f p.2 =
                backtick :: p.1 ++ backtick :: scanAGo g p.2
              rw [ih g p.2 h1 h2]
            | none =>
              have h1 : (c2 :: r).length ≤ f := by simp; omega
              have h2 : (c2 :: r).length ≤ g := by simp; omega
              show backtick :: scanAGo f (c2 :: r) = backtick :: scanAGo g (c2 :: r)
              rw [ih g (c2 :: r) h1 h2]
          · rw [if_neg hcond, if_neg hcond]
            have h1 : (c2 :: r).length ≤ f := by simp; omega
            have h2 : (c2 :: r).length ≤ g := by simp; omega
            rw [ih g (c2 :: r) h1 h2]

theorem scanB_cons_ne (c : Char) (rest : List Char) (hc : c ≠ backtick) :
    scanB (c :: rest) = escapeChar c ++ scanB rest := by
  cases rest with
  | nil => simp [scanB, scanBGo]
  | cons c2 r =>
    show scanBGo (r.length + 1 + 1) (c :: c2 :: r) = _
    rw [scanBGo, if_neg (by rintro ⟨h1, _⟩; exact hc h1)]
    rfl

theorem scanA_cons_ne (c : Char) (rest : List Char) (hc : c ≠ backtick) :
    scanA (c :: rest) = escapeChar c ++ scanA rest := by
  cases rest with
  | nil => simp [scanA, scanAGo]
  | cons c2 r =>
    show scanAGo (r.length + 1 + 1) (c :: c2 :: r) = _
    rw [scanAGo, if_neg (by rintro ⟨h1, _⟩; exact hc h1)]
    rfl

theorem scanB_span (c2 : Char) (rest : List Char) (p : List Char × List Char)
    (hc2 : c2 ≠ backtick) (htk : takeToBacktick (c2 :: rest) = some p) :
    scanB (backtick :: c2 :: rest) = backtick :: p.1 ++ backtick :: scanB p.2 := by
  show scanBGo (rest.length + 1 + 1) (backtick :: c2 :: rest) = _
  rw [scanBGo, if_pos ⟨rfl, hc2⟩, htk]
  have hsh := takeToBacktick_shorter _ p htk
  simp only [List.length_cons] at hsh
  show backtick :: p.1 ++ backtick :: scanBGo (rest.length + 1) p.2 = _
  rw [scanBGo_congr (rest.length + 1) p.2.length p.2 (by omega) le_rfl]
  rfl

theorem scanA_span (c2 : Char) (rest : List Char) (p : List Char × List Char)
    (hc2 : c2 ≠ backtick) (htk : takeToBacktick (c2 :: rest) = some p) :
    scanA (backtick :: c2 :: rest) = backtick :: p.1 ++ backtick :: scanA p.2 := by
  show scanAGo (rest.length + 1 + 1) (backtick :: c2 :: rest) = _
  rw [scanAGo, if_pos ⟨rfl, hc2⟩, htk]
  have hsh := takeToBacktick_shorter _ p htk
  simp only [List.length_cons] at hsh
  show backtick :: p.1 ++ backtick :: scanAGo (rest.length + 1) p.2 = _
  rw [scanAGo_congr (rest.length + 1) p.2.length p.2 (by omega) le_rfl]
  rfl

theorem scanB_unterminated (c2 : Char) (rest : List Char)
    (hc2 : c2 ≠ backtick) (htk : takeToBacktick (c2 :: rest) = none) :
    scanB (backtick :: c2 :: rest) = '\\' :: backtick :: scanB (c2 :: rest) := by
  show scanBGo (rest.length + 1 + 1) (backtick :: c2 :: rest) = _
  rw [scanBGo, if_pos ⟨rfl, hc2⟩, htk]
  rfl

theorem scanA_unterminated (c2 : Char) (rest : List Char)
    (hc2 : c2 ≠ backtick) (htk : takeToBacktick (c2 :: rest) = none) :
    scanA (backtick :: c2 :: rest) = backtick :: scanA (c2 :: rest) := by
  show scanAGo (rest.length + 1 + 1) (backtick :: c2 :: rest) = _
  rw [scanAGo, if_pos ⟨rfl, hc2⟩, htk]
  rfl

theorem scanB_no_backtick (cs : List Char) (h : backtick ∉ cs) :
    scanB cs = escapeAll cs := by
  induction cs with
  | nil => rfl
  | cons c rest ih =>
    have hc : c ≠ backtick := fun hh => h (hh ▸ List.mem_cons_self c rest)
    have hr : backtick ∉ rest := fun hh => h (List.mem_cons_of_mem c hh)
    rw [scanB_cons_ne c rest hc, ih hr, escapeAll]

theorem scanA_no_backtick (cs : List Char) (h : backtick ∉ cs) :
    scanA cs = escapeAll cs := by
  induction cs with
  | nil => rfl
  | cons c rest ih =>
    have hc : c ≠ backtick := fun hh => h (hh ▸ List.mem_cons_self c rest)
    have hr : backtick ∉ rest := fun hh => h (List.mem_cons_of_mem c hh)
    rw [scanA_cons_ne c rest hc, ih hr, escapeAll]

theorem escapeAll_id (cs : List Char) (h1 : '_' ∉ cs) (h2 : '[' ∉ cs) :
    escapeAll cs = cs := by
  induction cs with
  | nil => rfl
  | cons c rest ih =>
    have hc1 : ¬ c = '_' := fun hh => h1 (hh ▸ List.mem_cons_self c rest)
    have hc2 : ¬ c = '[' := fun hh => h2 (hh ▸ List.mem_cons_self c rest)
    have hr1 : '_' ∉ rest := fun hh => h1 (List.mem_cons_of_mem c hh)
    have hr2 : '[' ∉ rest := fun hh => h2 (List.mem_cons_of_mem c hh)
    rw [escapeAll, escapeChar, if_neg hc1, if_neg hc2, ih hr1 hr2]
    rfl

theorem startsWithFence_false (c : Char) (rest : List Char) (hc : c ≠ backtick) :
    startsWithFence (c :: rest) = false := by
  cases rest with
  | nil => rfl
  | cons a r =>
    cases r with
    | nil => rfl
    | cons d r2 => simp [startsWithFence, hc]

theorem hasTripleBacktick_no_bq (cs : List Char) (h : backtick ∉ cs) :
    hasTripleBacktick cs = false := by
  induction cs with
  | nil => rfl
  | cons c rest ih =>
    have hc : c ≠ backtick := fun hh => h (hh ▸ List.mem_cons_self c rest)
    have hr : backtick ∉ rest := fun hh => h (List.mem_cons_of_mem c hh)
    rw [hasTripleBacktick, startsWithFence_false c rest hc, ih hr]
    rfl

theorem hasTripleBacktick_cons (c : Char) (rest : List Char)
    (h : hasTripleBacktick rest = true) : hasTripleBacktick (c :: rest) = true := by
  rw [hasTripleBacktick, h, Bool.or_true]

theorem hasTripleBacktick_append (l1 l2 : List Char) :
    hasTripleBacktick (l1 ++ (fenceMarker ++ l2)) = true := by
  induction l1 with
  | nil =>
    rw [List.nil_append]
    show hasTripleBacktick (backtick :: backtick :: backtick :: l2) = true
    rw [hasTripleBacktick]
    simp [startsWithFence]
  | cons c rest ih =>
    rw [List.cons_append]
    exact hasTripleBacktick_cons c _ ih

theorem hasTripleBacktick_found (cs : List Char) (h : hasTripleBacktick cs = true) :
    ∃ l1 l2, cs = l1 ++ (fenceMarker ++ l2) := by
  induction cs with
  | nil => simp [hasTripleBacktick] at h
  | cons c rest ih =>
    rw [hasTripleBacktick, Bool.or_eq_true] at h
    cases h with
    | inl hs =>
      cases rest with
      | nil => simp [startsWithFence] at hs
      | cons a r =>
        cases r with
        | nil => simp [startsWithFence] at hs
        | cons d r2 =>
          simp only [startsWithFence, Bool.and_eq_true, decide_eq_true_eq] at hs
          obtain ⟨⟨h1, h2⟩, h3⟩ := hs
          subst h1; subst h2; subst h3
          exact ⟨[], r2, by simp [fenceMarker]⟩
    | inr hr =>
      obtain ⟨l1, l2, hl⟩ := ih hr
      exact ⟨c :: l1, l2, by simp [hl]⟩

/-! ## Claim theorems -/

/-- Claim C1: for every raw reply string, `render` returns a stored string
equal to `raw`, character for character, in both the fenced (Branch A)
and unfenced (Branch B) paths. -/
theorem render_stored_eq_raw (raw : List Char) : (render raw).stored = raw := by
  unfold render
  split <;> rfl

/-- Claim C2: the total cost of the turns returned by `get_chat_history`
never exceeds the budget; for every budget below or at zero the result is
the empty sequence, and a single turn whose own cost exceeds the budget at
the start of the scan is excluded whole. -/
theorem get_chat_history_budget (rows : List Turn) (b : Int) :
    (b ≤ 0 → get_chat_history rows b = []) ∧
    (0 ≤ b → ((totalCost (get_chat_history rows b) : Nat) : Int) ≤ b) ∧
    (∀ t rest, b < (cost t : Int) → get_chat_history (t :: rest) b = []) := by
  refine ⟨?_, ?_, ?_⟩
  · intro hb
    cases rows with
    | nil => rfl
    | cons t rest =>
      have h1 := cost_pos t
      rw [get_chat_history, windowAux, if_pos]
      · rfl
      · push_cast
        omega
  · intro hb
    rw [get_chat_history, totalCost_reverse]
    have h2 := windowAux_budget b rows 0 (by exact_mod_cast hb)
    push_cast at h2 ⊢
    omega
  · intro t rest hb
    rw [get_chat_history, windowAux, if_pos]
    · rfl
    · push_cast
      omega

/-- Witness for C2 at concrete transcripts: a negative budget yields the
empty window, a sufficient budget respects the bound, and a single turn of
cost five is excluded whole under budget one. -/
theorem get_chat_history_budget_witness :
    (get_chat_history [Turn.mk "user" ("hi".data) "text"] (-1) = []) ∧
    (((totalCost (get_chat_history [Turn.mk "user" ("hi".data) "text"] 5) : Nat) : Int) ≤ 5) ∧
    (get_chat_history [Turn.mk "user" ("a b c".data) "text"] 1 = []) :=
  ⟨(get_chat_history_budget [Turn.mk "user" ("hi".data) "text"] (-1)).1 (by decide),
   (get_chat_history_budget [Turn.mk "user" ("hi".data) "text"] 5).2.1 (by decide),
   (get_chat_history_budget [] 1).2.2 (Turn.mk "user" ("a b c".data) "text") [] (by decide)⟩

/-- Claim C3: the sequence returned by `get_chat_history` is a contiguous
suffix of the transcript in chronological (oldest-to-newest) order, and when
any turn is included the newest turn (the head of the newest-first rows) is
the last element of the result. -/
theorem get_chat_history_chronological (rows : List Turn) (b : Int) :
    (∃ m, get_chat_history rows b = (rows.reverse).drop m) ∧
    (get_chat_history rows b ≠ [] →
      (get_chat_history rows b).getLast? = rows.head?) := by
  constructor
  · obtain ⟨n, hn⟩ := windowAux_take rows b 0
    refine ⟨(rows.drop n).length, ?_⟩
    have hsplit : rows.reverse = (rows.drop n).reverse ++ (rows.take n).reverse := by
      rw [← List.reverse_append, List.take_append_drop]
    rw [get_chat_history, hn, hsplit, ← List.length_reverse (rows.drop n)]
    exact (List.drop_left _ _).symm
  · intro h
    rw [get_chat_history] at h ⊢
    rw [List.getLast?_reverse]
    apply windowAux_head
    intro hh
    rw [hh] at h
    exact h rfl

/-- Witness for C3: with a two-turn transcript and a large budget, the
window is nonempty and ends with the newest turn. -/
theorem get_chat_history_chronological_witness :
    (get_chat_history [Turn.mk "bot" ("x".data) "text",
        Turn.mk "user" ("y".data) "text"] 100).getLast? =
      [Turn.mk "bot" ("x".data) "text", Turn.mk "user" ("y".data) "text"].head? :=
  (get_chat_history_chronological
    [Turn.mk "bot" ("x".data) "text", Turn.mk "user" ("y".data) "text"] 100).2
    (by decide)

/-- Counterexample to claim C4: the raw string "a```b" contains no line
whose entire content is the fence marker, yet `render` does not apply the
whole-string Branch B scan to it (the substring test selects Branch A). -/
theorem fence_detection_counterexample :
    (∀ l ∈ splitOnNl ("a```b".data), l ≠ fenceMarker) ∧
    (render ("a```b".data)).display ≠ scanB ("a```b".data) := by
  constructor
  · decide
  · decide

/-- Claim C4 (amended): `render` selects the line-by-line Branch A if and
only if the 3-character fence marker occurs as a substring anywhere in
`raw` — also mid-line — and otherwise the whole-string Branch B scan
applies. -/
theorem render_branch_selection (raw : List Char) :
    (hasTripleBacktick raw = true ↔ ∃ l1 l2, raw = l1 ++ (fenceMarker ++ l2)) ∧
    (hasTripleBacktick raw = true →
      (render raw).display = joinNl (processLinesA (splitOnNl raw) false)) ∧
    (hasTripleBacktick raw = false → (render raw).display = scanB raw) := by
  refine ⟨⟨hasTripleBacktick_found raw, ?_⟩, ?_, ?_⟩
  · rintro ⟨l1, l2, rfl⟩
    exact hasTripleBacktick_append l1 l2
  · intro h
    unfold render
    rw [if_pos h]
  · intro h
    unfold render
    rw [if_neg (by simp [h])]

/-- Witness for the amended C4: "a```b" contains the marker as a substring,
and a marker-free input goes through the Branch B scan. -/
theorem render_branch_selection_witness :
    (∃ l1 l2, ("a```b".data) = l1 ++ (fenceMarker ++ l2)) ∧
    (render ("hi".data)).display = scanB ("hi".data) :=
  ⟨(render_branch_selection ("a```b".data)).1.mp (by decide),
   (render_branch_selection ("hi".data)).2.2 (by decide)⟩

/-- Claim C5: in prose context, in both branches, a character that does not
open a span is escaped by the ordinary rule — underscore to backslash-
underscore, left bracket to backslash-left-bracket, every other character
(notably asterisk) unchanged — and every character of a properly closed
single-backtick inline span, delimiters included, is copied unmodified. -/
theorem prose_escape_and_span_copy (c : Char) (body rest : List Char)
    (hb : backtick ∉ body) (hne : body ≠ []) (hc : c ≠ backtick) :
    scanB (backtick :: body ++ backtick :: rest) =
      backtick :: body ++ backtick :: scanB rest ∧
    scanA (backtick :: body ++ backtick :: rest) =
      backtick :: body ++ backtick :: scanA rest ∧
    scanB (c :: rest) = escapeChar c ++ scanB rest ∧
    scanA (c :: rest) = escapeChar c ++ scanA rest ∧
    escapeChar '_' = ['\\', '_'] ∧
    escapeChar '[' = ['\\', '['] ∧
    (c ≠ '_' → c ≠ '[' → escapeChar c = [c]) := by
  obtain ⟨b0, body', rfl⟩ : ∃ b0 body', body = b0 :: body' := by
    cases body with
    | nil => exact absurd rfl hne
    | cons x xs => exact ⟨x, xs, rfl⟩
  have hb0 : b0 ≠ backtick := fun hh => hb (hh ▸ List.mem_cons_self b0 body')
  have htk : takeToBacktick (b0 :: (body' ++ backtick :: rest)) =
      some (b0 :: body', rest) := by
    have h2 := takeToBacktick_append (b0 :: body') rest hb
    simpa using h2
  refine ⟨?_, ?_, scanB_cons_ne c rest hc, scanA_cons_ne c rest hc,
    by decide, by decide, ?_⟩
  · have h3 := scanB_span b0 (body' ++ backtick :: rest) (b0 :: body', rest) hb0 htk
    simpa using h3
  · have h3 := scanA_span b0 (body' ++ backtick :: rest) (b0 :: body', rest) hb0 htk
    simpa using h3
  · intro h1 h2
    rw [escapeChar, if_neg h1, if_neg h2]

/-- Witness for C5 at a concrete span and character: the span with body
"x_y" is copied verbatim by both branches, and the asterisk passes the
ordinary escaping rule unchanged. -/
theorem prose_escape_and_span_copy_witness :
    scanB (backtick :: ("x_y".data) ++ backtick :: ("t".data)) =
      backtick :: ("x_y".data) ++ backtick :: scanB ("t".data) ∧
    scanA (backtick :: ("x_y".data) ++ backtick :: ("t".data)) =
      backtick :: ("x_y".data) ++ backtick :: scanA ("t".data) ∧
    scanB ('*' :: ("t".data)) = escapeChar '*' ++ scanB ("t".data) ∧
    scanA ('*' :: ("t".data)) = escapeChar '*' ++ scanA ("t".data) ∧
    escapeChar '_' = ['\\', '_'] ∧
    escapeChar '[' = ['\\', '['] ∧
    ('*' ≠ '_' → '*' ≠ '[' → escapeChar '*' = ['*']) :=
  prose_escape_and_span_copy '*' ("x_y".data) ("t".data)
    (by decide) (by decide) (by decide)

/-- Claim C6: in Branch A a line that is exactly the fence marker toggles
the inside-fence flag, an untagged opening fence is emitted with the fixed
default tag "python", a closing fence is emitted as the bare marker, and a
non-fence line scanned while the flag is true passes through unmodified. -/
theorem fence_line_handling (rest : List (List Char)) (b : Bool) (line : List Char) :
    (processLinesA (fenceMarker :: rest) b =
      (if b then fenceMarker else fenceMarker ++ "python".data) ::
        processLinesA rest (!b)) ∧
    (startsWithFence line = false →
      processLinesA (line :: rest) true = line :: processLinesA rest true) := by
  have hs : startsWithFence fenceMarker = true := by decide
  constructor
  · cases b <;> simp [processLinesA, hs]
  · intro h
    simp [processLinesA, h]

/-- Witness for C6: a one-line fence opens with the synthesized tag, and a
plain line inside a block is left untouched. -/
theorem fence_line_handling_witness :
    (processLinesA (fenceMarker :: []) false =
      (if false then fenceMarker else fenceMarker ++ "python".data) ::
        processLinesA [] (!false)) ∧
    (processLinesA (("x".data) :: []) true = ("x".data) :: processLinesA [] true) :=
  ⟨(fence_line_handling [] false ("x".data)).1,
   (fence_line_handling [] false ("x".data)).2 (by decide)⟩

/-- Counterexample to claim C7: in Branch A the tail after an unterminated
opening backtick is NOT copied literally — the underscore in the prose line
"`a_b" is still escaped, so the display differs from the literal-copy
prediction. -/
theorem unterminated_tail_counterexample :
    (render ("`a_b\n```\nc\n```".data)).display = ("`a\\_b\n```python\nc\n```".data) ∧
    (render ("`a_b\n```\nc\n```".data)).display ≠ ("`a_b\n```python\nc\n```".data) := by
  constructor
  · decide
  · decide

/-- Claim C7 (amended): on an inline span opened by a single backtick with no
closing backtick in the scanned unit, Branch A emits the lone opening
backtick literally and continues ordinary escaping on the tail, while
Branch B emits the lone opening backtick escaped as backslash-backtick and
likewise continues ordinary escaping on the tail. -/
theorem unterminated_span_divergence (c : Char) (rest : List Char)
    (hc : c ≠ backtick) (hr : backtick ∉ rest) :
    scanA (backtick :: c :: rest) = backtick :: escapeAll (c :: rest) ∧
    scanB (backtick :: c :: rest) = '\\' :: backtick :: escapeAll (c :: rest) := by
  have hcr : backtick ∉ (c :: rest) := by
    intro hh
    rcases List.mem_cons.mp hh with h1 | h2
    · exact hc h1.symm
    · exact hr h2
  have htk := takeToBacktick_eq_none (c :: rest) hcr
  constructor
  · rw [scanA_unterminated c rest hc htk, scanA_no_backtick _ hcr]
  · rw [scanB_unterminated c rest hc htk, scanB_no_backtick _ hcr]

/-- Witness for the amended C7 on the tail "n_t": Branch A keeps the lone
backtick literal, Branch B escapes it; both escape the tail underscore. -/
theorem unterminated_span_divergence_witness :
    scanA (backtick :: 'u' :: ("n_t".data)) =
      backtick :: escapeAll ('u' :: ("n_t".data)) ∧
    scanB (backtick :: 'u' :: ("n_t".data)) =
      '\\' :: backtick :: escapeAll ('u' :: ("n_t".data)) :=
  unterminated_span_divergence 'u' ("n_t".data) (by decide) (by decide)

theorem render_display_fixed (s : List Char) (h1 : backtick ∉ s)
    (h2 : '_' ∉ s) (h3 : '[' ∉ s) : (render s).display = s := by
  unfold render
  rw [if_neg (by simp [hasTripleBacktick_no_bq s h1])]
  show scanB s = s
  rw [scanB_no_backtick s h1, escapeAll_id s h2 h3]

/-- Claim C8: for every string with no backticks, no underscores and no
brackets, `render` is idempotent on the display component. -/
theorem render_display_idempotent (s : List Char)
    (h1 : backtick ∉ s) (h2 : '_' ∉ s) (h3 : '[' ∉ s) (h4 : ']' ∉ s) :
    (render ((render s).display)).display = (render s).display := by
  rw [render_display_fixed s h1 h2 h3, render_display_fixed s h1 h2 h3]

/-- Witness for C8 on plain prose with asterisks. -/
theorem render_display_idempotent_witness :
    (render ((render ("hello *world*".data)).display)).display =
      (render ("hello *world*".data)).display :=
  render_display_idempotent ("hello *world*".data)
    (by decide) (by decide) (by decide) (by decide)

/-- Counterexample to claim C9: the reply persisted by `process_content` is
appended under role "bot", not "assistant". -/
theorem saved_role_counterexample :
    ((processSaves "text" ("hi".data) ("ok".data) []).getLast?).map Turn.role =
      some "bot" ∧
    ((processSaves "text" ("hi".data) ("ok".data) []).getLast?).map Turn.role ≠
      some "assistant" := by
  constructor
  · decide
  · decide

/-- Claim C9 (amended): whenever a model reply is obtained and persisted,
the stored string is appended to the transcript under role "bot" with kind
"text", so every turn the handler appends carries role "user" or "bot". -/
theorem processSaves_roles (ctype : String) (msgText rawReply : List Char)
    (h : List Turn) :
    (processSaves ctype msgText rawReply h).getLast? =
      some (Turn.mk "bot" rawReply "text") ∧
    (∀ t ∈ processSaves ctype msgText rawReply h,
      t ∈ h ∨ t.role = "user" ∨ t.role = "bot") := by
  have hst : (render rawReply).stored = rawReply := by
    unfold render
    split <;> rfl
  constructor
  · simp only [processSaves, appendTurn, hst]
    exact List.getLast?_concat _
  · intro t ht
    simp only [processSaves, appendTurn, hst] at ht
    rcases List.mem_append.mp ht with h1 | h2
    · split at h1
      · rcases List.mem_append.mp h1 with hh | hh
        · exact Or.inl hh
        · refine Or.inr (Or.inl ?_)
          have he : t = Turn.mk "user" msgText "text" := by simpa using hh
          rw [he]
      · split at h1
        · rcases List.mem_append.mp h1 with hh | hh
          · exact Or.inl hh
          · refine Or.inr (Or.inl ?_)
            have he : t = Turn.mk "user" ("Фото".data) "image" := by simpa using hh
            rw [he]
        · split at h1
          · rcases List.mem_append.mp h1 with hh | hh
            · exact Or.inl hh
            · refine Or.inr (Or.inl ?_)
              have he : t = Turn.mk "user" ("Аудио".data) "audio" := by simpa using hh
              rw [he]
          · exact Or.inl h1
    · refine Or.inr (Or.inr ?_)
      have he : t = Turn.mk "bot" rawReply "text" := by simpa using h2
      rw [he]

/-- Witness for the amended C9 on a photo message: the appended reply turn
carries role "bot", and the appended user turn satisfies the role bound. -/
theorem processSaves_roles_witness :
    ((processSaves "photo" ("x".data) ("r".data) []).getLast? =
      some (Turn.mk "bot" ("r".data) "text")) ∧
    (Turn.mk "user" ("Фото".data) "image" ∈ ([] : List Turn) ∨
      (Turn.mk "user" ("Фото".data) "image").role = "user" ∨
      (Turn.mk "user" ("Фото".data) "image").role = "bot") :=
  ⟨(processSaves_roles "photo" ("x".data) ("r".data) []).1,
   (processSaves_roles "photo" ("x".data) ("r".data) []).2
     (Turn.mk "user" ("Фото".data) "image") (by decide)⟩

/-- Claim C10: a backtick at the final index of the scanned unit is never
treated as a span opener: after any backtick-free prefix, both the Branch B
whole-string scan and the Branch A line scan emit the final backtick
literally and unescaped. -/
theorem trailing_backtick_literal (cs : List Char) (h : backtick ∉ cs) :
    scanB (cs ++ [backtick]) = escapeAll cs ++ [backtick] ∧
    scanA (cs ++ [backtick]) = escapeAll cs ++ [backtick] := by
  induction cs with
  | nil =>
    constructor
    · decide
    · decide
  | cons c rest ih =>
    have hc : c ≠ backtick := fun hh => h (hh ▸ List.mem_cons_self c rest)
    have hr : backtick ∉ rest := fun hh => h (List.mem_cons_of_mem c hh)
    obtain ⟨ihB, ihA⟩ := ih hr
    constructor
    · rw [List.cons_append, scanB_cons_ne c _ hc, ihB]
      simp [escapeAll]
    · rw [List.cons_append, scanA_cons_ne c _ hc, ihA]
      simp [escapeAll]

/-- Witness for C10: "a_`" keeps its final backtick literal in both scans
while the underscore before it is escaped. -/
theorem trailing_backtick_literal_witness :
    scanB (("a_".data) ++ [backtick]) = escapeAll ("a_".data) ++ [backtick] ∧
    scanA (("a_".data) ++ [backtick]) = escapeAll ("a_".data) ++ [backtick] :=
  trailing_backtick_literal ("a_".data) (by decide)
